import Mathlib

/- Shallow embedding of the document-retrieval pipeline implemented by class
   PDFProcessor in src/utils.py, and of its orchestration in src/app.py.

   Modelling conventions:
   - Python text is `List Char`; Python ints are `Int`/`Nat`; floats are `ℚ`.
   - The chunking loop of `chunk_text` can fail to terminate, so it is embedded
     with explicit fuel and returns `Option`: `none` models divergence.
   - External collaborators are oracles: a PDF page is `Option (List Char)`
     (`none` = the page's `get_text()` raises), the sentence-transformer
     `model.encode` is a function argument returning `Option` (`none` = the
     call raises), and `faiss.IndexFlatL2` is modelled by `IndexState` and
     `faiss_search` following faiss's documented exact-L2 semantics: ascending
     squared distances, and results padded to `k` entries with label `-1` and
     FLT_MAX distance when fewer than `k` vectors are indexed.
   - A printed error message is modelled as a returned `Bool` flag where the
     source's only failure signal is a `print` in an `except` block. -/

namespace PDF

/-- Python whitespace test (ASCII range), used by str.strip(). -/
def pyIsSpace (c : Char) : Bool :=
  c = ' ' || c = '\t' || c = '\n' || c = '\r' || c = '\x0b' || c = '\x0c'

/-- Truthiness of chunk.strip(): the chunk contains a non-whitespace character. -/
def strip_nonempty (s : List Char) : Bool := s.any (fun c => !(pyIsSpace c))

/-- Clamp a Python slice endpoint (possibly negative) to an index in [0, L]. -/
def pyBound (L : Nat) (i : Int) : Nat :=
  if i < 0 then ((L : Int) + i).toNat else min i.toNat L

/-- State of the scanning loop in PDFProcessor.chunk_text: the Python local
`start` (an int, which the source can drive negative) and the accumulated
`chunks` list. -/
structure ChunkState where
  start : Int
  chunks : List (List Char)
deriving DecidableEq, Repr

/-- The loop's `end` value: `end = start + chunk_size; if end > text_length:
end = text_length` (src/utils.py lines 58-60). -/
def chunk_endPos (L size : Nat) (st : Int) : Int :=
  if (L : Int) < st + (size : Int) then (L : Int) else st + (size : Int)

/-- The loop's `chunk = text[start:end]` slice (line 61), with Python slice
semantics for negative indices. -/
def chunk_piece (text : List Char) (size : Nat) (st : Int) : List Char :=
  (text.drop (pyBound text.length st)).take
    (pyBound text.length (chunk_endPos text.length size st) - pyBound text.length st)

/-- One iteration of the chunk_text loop body (lines 58-67): slice the window,
append it when its stripped content is non-empty, then `start = end - overlap`. -/
def chunk_step (text : List Char) (size overlap : Nat) (s : ChunkState) : ChunkState :=
  { start := chunk_endPos text.length size s.start - (overlap : Int),
    chunks :=
      if strip_nonempty (chunk_piece text size s.start) then
        s.chunks ++ [chunk_piece text size s.start]
      else s.chunks }

/-- The loop condition `start < text_length and len(chunks) < max_chunks`. -/
def chunk_guard (L maxChunks : Nat) (s : ChunkState) : Bool :=
  decide (s.start < (L : Int)) && decide (s.chunks.length < maxChunks)

/-- The chunk_text scanning loop with explicit fuel; `none` models the loop
running forever (the source has no other exit). -/
def chunk_loop (text : List Char) (size overlap maxChunks : Nat) :
    Nat → ChunkState → Option (List (List Char))
  | 0, s => if chunk_guard text.length maxChunks s then none else some s.chunks
  | fuel+1, s =>
      if chunk_guard text.length maxChunks s then
        chunk_loop text size overlap maxChunks fuel (chunk_step text size overlap s)
      else some s.chunks

/-- PDFProcessor.chunk_text (lines 50-73, normal path): run the loop from
`start = 0`, then return `chunks[:max_chunks]`. -/
def chunk_text (text : List Char) (size overlap maxChunks fuel : Nat) :
    Option (List (List Char)) :=
  (chunk_loop text size overlap maxChunks fuel { start := 0, chunks := [] }).map
    (fun cs => cs.take maxChunks)

/-- Guarded step: one loop iteration when the guard holds, identity otherwise.
Iterating it enumerates every state the loop reaches. -/
def chunk_gstep (text : List Char) (size overlap maxChunks : Nat) (s : ChunkState) : ChunkState :=
  if chunk_guard text.length maxChunks s then chunk_step text size overlap s else s

/-- The MemoryError degradation path of chunk_text (line 77): return
`chunks[:len(chunks)//2]` of whatever had accumulated. -/
def chunk_mem_fallback (s : ChunkState) : List (List Char) :=
  s.chunks.take (s.chunks.length / 2)

/-- The j-th window of the spec's windowing law: the substring of width `size`
starting at `j * (size - overlap)` (clipped at the text's end by `take`). -/
def window (text : List Char) (size overlap j : Nat) : List Char :=
  (text.drop (j * (size - overlap))).take size

/-- PDFProcessor.extract_text_from_page (lines 22-28): `page.get_text()` with
any exception degraded to the empty string. The page oracle is `none` when
extraction raises. -/
def extract_text_from_page (page : Option (List Char)) : List Char := page.getD []

/-- The batched page loop of extract_text_from_pdf (lines 36-45): slices of
`batch_size` pages, each batch mapped through extract_text_from_page
(`executor.map` preserves input order), results concatenated in order.
Fuel-indexed; fuel `pages.length` always suffices for a positive batch size. -/
def extract_go (pages : List (Option (List Char))) (bs : Nat) :
    Nat → Nat → List (List Char)
  | 0, _ => []
  | fuel+1, i =>
      if i < pages.length then
        ((pages.drop i).take bs).map extract_text_from_page ++ extract_go pages bs fuel (i + bs)
      else []

/-- PDFProcessor.extract_text_from_pdf (lines 30-48): `"".join(text)` over the
batched per-page results. -/
def extract_text_from_pdf (pages : List (Option (List Char))) (bs : Nat) : List Char :=
  (extract_go pages bs pages.length 0).flatten

/-- The batched embedding loop of generate_embeddings (lines 95-110): for
`i in range(0, total, 5)`, encode `chunks[i:i+5]`; on success extend the
embeddings and report progress `(i + len(batch)) / total_chunks`; on failure
skip the batch (and report nothing). Returns (embeddings, reported fractions
in call order). Fuel-indexed; fuel `chunks.length` always suffices. -/
def gen_go (encode : List (List Char) → Option (List (List ℚ))) (chunks : List (List Char)) :
    Nat → Nat → List (List ℚ) × List ℚ
  | 0, _ => ([], [])
  | fuel+1, i =>
      if i < chunks.length then
        match encode ((chunks.drop i).take 5) with
        | some embs =>
            let rest := gen_go encode chunks fuel (i + 5)
            (embs ++ rest.1,
              (((i + ((chunks.drop i).take 5).length : Nat) : ℚ) / (chunks.length : ℚ)) :: rest.2)
        | none => gen_go encode chunks fuel (i + 5)
      else ([], [])

/-- PDFProcessor.generate_embeddings (lines 89-112). -/
def generate_embeddings (encode : List (List Char) → Option (List (List ℚ)))
    (chunks : List (List Char)) : List (List ℚ) × List ℚ :=
  gen_go encode chunks chunks.length 0

/-- The start index of the last batch the loop `range(0, n, 5)` attempts. -/
def last_batch_start (n : Nat) : Nat := ((n - 1) / 5) * 5

/-- State of the faiss.IndexFlatL2 index plus the `is_index_initialized` flag
(src/utils.py lines 13-18): dimensionality and the vectors added so far. -/
structure IndexState where
  initialized : Bool
  dim : Nat
  vecs : List (List ℚ)
deriving DecidableEq, Repr

/-- The state built by PDFProcessor.__init__: IndexFlatL2(384), empty, with
`is_index_initialized = False`. -/
def initIndexState : IndexState := { initialized := false, dim := 384, vecs := [] }

/-- PDFProcessor.build_index (lines 114-124): on first call replace the index
with a fresh one of the batch's dimensionality, then `index.add`; a
dimensionality mismatch makes `add` raise, which the except block turns into a
printed message (the returned Bool; the function itself returns None either
way). `d` is `embeddings.shape[1]`, `rows` the batch's vectors. -/
def build_index (s : IndexState) (d : Nat) (rows : List (List ℚ)) : IndexState × Bool :=
  let s1 := if s.initialized then s else { initialized := true, dim := d, vecs := [] }
  if d = s1.dim then ({ s1 with vecs := s1.vecs ++ rows }, false) else (s1, true)

/-- Squared L2 distance, the metric of faiss.IndexFlatL2. -/
def sqdist (a b : List ℚ) : ℚ := (List.zipWith (fun x y => (x - y) * (x - y)) a b).sum

/-- Insertion into a distance-ascending list of (label, distance) pairs. -/
def insertD (p : Int × ℚ) : List (Int × ℚ) → List (Int × ℚ)
  | [] => [p]
  | q :: t => if p.2 < q.2 then p :: q :: t else q :: insertD p t

/-- Distance-ascending (stable) sort of (label, distance) pairs. -/
def sortD : List (Int × ℚ) → List (Int × ℚ)
  | [] => []
  | p :: t => insertD p (sortD t)

/-- FLT_MAX, the distance faiss reports for padding entries. -/
def flt_max : ℚ := 340282346638528859811704183484516925440

/-- faiss IndexFlatL2.search for a single query: exact squared-L2 distances to
every stored vector, ascending, truncated to k; when fewer than k vectors are
stored, the result is padded to length k with label -1 and FLT_MAX distance
(faiss's documented behavior). -/
def faiss_search (vecs : List (List ℚ)) (q : List ℚ) (k : Nat) : List (Int × ℚ) :=
  (sortD (vecs.enum.map (fun p => ((p.1 : Int), sqdist q p.2)))).take k
    ++ List.replicate (k - vecs.length) ((-1 : Int), flt_max)

/-- Python list indexing `text_chunks[idx]` for an int index: negative indices
count from the end. -/
def pyNth (l : List (List Char)) (i : Int) : List Char :=
  if 0 ≤ i then (l[i.toNat]?).getD [] else (l[((l.length : Int) + i).toNat]?).getD []

/-- PDFProcessor.search (lines 126-139): embed the query (an oracle that may
fail), run the faiss search (which raises on a query/index dimensionality
mismatch), and keep results whose label passes `idx < len(self.text_chunks)`;
every failure path returns []. -/
def search (encodeQ : Option (List ℚ)) (idx : IndexState) (textChunks : List (List Char))
    (k : Nat) : List (List Char × ℚ) :=
  match encodeQ with
  | none => []
  | some q =>
      if q.length = idx.dim then
        (faiss_search idx.vecs q k).filterMap
          (fun p =>
            if p.1 < (textChunks.length : Int) then some (pyNth textChunks p.1, p.2) else none)
      else []

/-- The pipeline state touched by process_pdf and build_index: the faiss index
and the position-aligned `text_chunks` list. -/
structure PipelineState where
  index : IndexState
  text_chunks : List (List Char)
deriving DecidableEq, Repr

/-- PDFProcessor.process_pdf (lines 79-87): extract (the `openResult` oracle is
`none` when `fitz.open`/extraction raises, in which case the except block
returns [] leaving all state as it was), chunk with the fixed batch size 10,
store the chunks in `self.text_chunks` and also return them. `none` overall
models chunk_text diverging. -/
def process_pdf (openResult : Option (List (Option (List Char))))
    (size overlap maxChunks fuel : Nat) (s : PipelineState) :
    Option (PipelineState × List (List Char)) :=
  match openResult with
  | none => some (s, [])
  | some pages =>
      match chunk_text (extract_text_from_pdf pages 10) size overlap maxChunks fuel with
      | none => none
      | some cs => some ({ s with text_chunks := cs }, cs)

/-- The extracted text of the spec's end-to-end scenario (section 8). -/
def sampleText : List Char := ("AAAA BBBB CCCC DDDD").data

/-- A text, at the default configuration (size 300, overlap 20), whose final
window is whitespace-only: 280 letters followed by 20 spaces. -/
def wsTailText : List Char := List.replicate 280 'a' ++ List.replicate 20 ' '

/-- A three-character text used with overlap > size. -/
def abcText : List Char := ("abc").data

/-- Six one-character chunks: two embedding batches ([5 chunks], [1 chunk]). -/
def chunksW : List (List Char) :=
  [("a").data, ("b").data, ("c").data, ("d").data, ("e").data, ("f").data]

/-- An encode oracle that always succeeds (constant per-chunk vector). -/
def encodeW (b : List (List Char)) : Option (List (List ℚ)) :=
  some (b.map (fun _ => [(0 : ℚ)]))

/-- An encode oracle that fails exactly on batches of fewer than 5 chunks, so
the trailing batch of `chunksW` fails. -/
def encodeB (b : List (List Char)) : Option (List (List ℚ)) :=
  if b.length = 5 then some (b.map (fun _ => [(0 : ℚ)])) else none

/-- An index holding exactly one 1-dimensional embedding. -/
def idxOne : IndexState := { initialized := true, dim := 1, vecs := [[0]] }

/-- A pipeline that has already ingested a document: one indexed vector and a
non-empty aligned chunk list. -/
def populatedState : PipelineState :=
  { index := { initialized := true, dim := 2, vecs := [[1, 2]] },
    text_chunks := [("old").data] }

/-- A one-page document whose page extracts to the text xy. -/
def xyPages : List (Option (List Char)) := [some (("xy").data)]

end PDF

set_option maxRecDepth 100000

namespace PDF

theorem chunk_loop_of_guard_false {text : List Char} {size overlap maxChunks : Nat}
    {s : ChunkState} (h : chunk_guard text.length maxChunks s = false) (fuel : Nat) :
    chunk_loop text size overlap maxChunks fuel s = some s.chunks := by
  cases fuel <;> simp [chunk_loop, h]

theorem chunk_loop_add (text : List Char) (size overlap maxChunks : Nat) :
    ∀ (a fuel : Nat) (s : ChunkState),
      chunk_loop text size overlap maxChunks (a + fuel) s =
        chunk_loop text size overlap maxChunks fuel
          ((chunk_gstep text size overlap maxChunks)^[a] s) := by
  intro a
  induction a with
  | zero => intro fuel s; simp
  | succ a ih =>
      intro fuel s
      by_cases h : chunk_guard text.length maxChunks s = true
      · have hidx : a + 1 + fuel = (a + fuel) + 1 := by omega
        rw [hidx]
        have h1 : chunk_loop text size overlap maxChunks ((a + fuel) + 1) s =
            chunk_loop text size overlap maxChunks (a + fuel) (chunk_step text size overlap s) := by
          simp [chunk_loop, h]
        rw [h1, ih fuel (chunk_step text size overlap s),
          Function.iterate_succ_apply]
        have h3 : chunk_gstep text size overlap maxChunks s = chunk_step text size overlap s := by
          simp [chunk_gstep, h]
        rw [h3]
      · have hfalse : chunk_guard text.length maxChunks s = false := by
          simpa using h
        have hfix : chunk_gstep text size overlap maxChunks s = s := by
          simp [chunk_gstep, hfalse]
        rw [Function.iterate_fixed hfix, chunk_loop_of_guard_false hfalse,
          chunk_loop_of_guard_false hfalse]

theorem chunk_step_chunks (text : List Char) (size overlap : Nat) (s : ChunkState) :
    ∃ v, (chunk_step text size overlap s).chunks = s.chunks ++ v := by
  unfold chunk_step
  dsimp only
  split
  · exact ⟨[chunk_piece text size s.start], rfl⟩
  · exact ⟨[], by simp⟩

theorem chunk_loop_extends (text : List Char) (size overlap maxChunks : Nat) :
    ∀ (fuel : Nat) (s : ChunkState) (r : List (List Char)),
      chunk_loop text size overlap maxChunks fuel s = some r → ∃ v, r = s.chunks ++ v := by
  intro fuel
  induction fuel with
  | zero =>
      intro s r h
      by_cases hg : chunk_guard text.length maxChunks s = true
      · simp [chunk_loop, hg] at h
      · have hfalse : chunk_guard text.length maxChunks s = false := by simpa using hg
        simp [chunk_loop, hfalse] at h
        exact ⟨[], by simp [h.symm]⟩
  | succ fuel ih =>
      intro s r h
      by_cases hg : chunk_guard text.length maxChunks s = true
      · rw [show chunk_loop text size overlap maxChunks (fuel + 1) s =
            chunk_loop text size overlap maxChunks fuel (chunk_step text size overlap s) from
            by simp [chunk_loop, hg]] at h
        obtain ⟨v, hv⟩ := ih _ _ h
        obtain ⟨w, hw⟩ := chunk_step_chunks text size overlap s
        exact ⟨w ++ v, by rw [hv, hw, List.append_assoc]⟩
      · have hfalse : chunk_guard text.length maxChunks s = false := by simpa using hg
        simp [chunk_loop, hfalse] at h
        exact ⟨[], by simp [h.symm]⟩

theorem chunk_loop_through (text : List Char) (size overlap maxChunks : Nat) :
    ∀ (a fuel : Nat) (s : ChunkState) (r : List (List Char)),
      (∀ u, u < a →
        chunk_guard text.length maxChunks ((chunk_gstep text size overlap maxChunks)^[u] s) = true) →
      chunk_loop text size overlap maxChunks fuel s = some r →
      ∃ v, r = ((chunk_gstep text size overlap maxChunks)^[a] s).chunks ++ v := by
  intro a
  induction a with
  | zero =>
      intro fuel s r _ h
      simpa using chunk_loop_extends text size overlap maxChunks fuel s r h
  | succ a ih =>
      intro fuel s r hg h
      have h0 : chunk_guard text.length maxChunks s = true := by
        simpa using hg 0 (Nat.succ_pos a)
      cases fuel with
      | zero => simp [chunk_loop, h0] at h
      | succ fuel =>
          rw [show chunk_loop text size overlap maxChunks (fuel + 1) s =
              chunk_loop text size overlap maxChunks fuel (chunk_step text size overlap s) from
              by simp [chunk_loop, h0]] at h
          have hs : chunk_gstep text size overlap maxChunks s = chunk_step text size overlap s := by
            simp [chunk_gstep, h0]
          have hg' : ∀ u, u < a →
              chunk_guard text.length maxChunks
                ((chunk_gstep text size overlap maxChunks)^[u] (chunk_step text size overlap s)) =
                true := by
            intro u hu
            have := hg (u + 1) (by omega)
            rwa [Function.iterate_succ_apply, hs] at this
          obtain ⟨v, hv⟩ := ih fuel (chunk_step text size overlap s) r hg' h
          refine ⟨v, ?_⟩
          rw [hv, Function.iterate_succ_apply, hs]

theorem chunk_piece_of_fit (text : List Char) (size : Nat) (st : Nat)
    (h : st + size ≤ text.length) :
    chunk_endPos text.length size (st : Int) = ((st + size : Nat) : Int) ∧
    chunk_piece text size (st : Int) = (text.drop st).take size := by
  have hend : chunk_endPos text.length size (st : Int) = ((st + size : Nat) : Int) := by
    unfold chunk_endPos
    rw [if_neg]
    · push_cast; ring
    · omega
  refine ⟨hend, ?_⟩
  unfold chunk_piece
  rw [hend]
  have h1 : pyBound text.length (st : Int) = st := by
    unfold pyBound
    rw [if_neg (by omega)]
    simp [Int.toNat_natCast]
    omega
  have h2 : pyBound text.length ((st + size : Nat) : Int) = st + size := by
    unfold pyBound
    rw [if_neg (by omega)]
    simp [Int.toNat_natCast]
    omega
  rw [h1, h2]
  congr 1
  omega

end PDF

namespace PDF

theorem chunk_iter_windows (text : List Char) (size overlap maxChunks : Nat)
    (hov : overlap < size) :
    ∀ t : Nat,
      (∀ u, u < t → u * (size - overlap) + size ≤ text.length) →
      (∀ u, u < t → strip_nonempty (window text size overlap u) = true) →
      t ≤ maxChunks →
      (chunk_gstep text size overlap maxChunks)^[t] { start := 0, chunks := [] } =
        { start := ((t * (size - overlap) : Nat) : Int),
          chunks := (List.range t).map (window text size overlap) } := by
  intro t
  induction t with
  | zero => intro _ _ _; simp
  | succ t ih =>
      intro hfit hws hmax
      rw [Function.iterate_succ_apply',
        ih (fun u hu => hfit u (by omega)) (fun u hu => hws u (by omega)) (by omega)]
      have hfitT := hfit t (Nat.lt_succ_self t)
      have hg : chunk_guard text.length maxChunks
          { start := ((t * (size - overlap) : Nat) : Int),
            chunks := (List.range t).map (window text size overlap) } = true := by
        simp only [chunk_guard, Bool.and_eq_true, decide_eq_true_eq]
        constructor
        · exact_mod_cast (by omega : t * (size - overlap) < text.length)
        · simpa using (by omega : t < maxChunks)
      rw [chunk_gstep, if_pos hg]
      obtain ⟨hend, hpiece⟩ :=
        chunk_piece_of_fit text size (t * (size - overlap)) hfitT
      have hwin : chunk_piece text size ((t * (size - overlap) : Nat) : Int) =
          window text size overlap t := hpiece
      unfold chunk_step
      dsimp only
      rw [hwin, hws t (Nat.lt_succ_self t), if_pos rfl, hend]
      congr 1
      · push_cast [Nat.cast_sub hov.le]
        ring
      · rw [List.range_succ, List.map_append]
        rfl

theorem chunk_iter_length_le (text : List Char) (size overlap maxChunks : Nat) :
    ∀ t, ((chunk_gstep text size overlap maxChunks)^[t] { start := 0, chunks := [] }).chunks.length
      ≤ maxChunks := by
  intro t
  induction t with
  | zero => simp
  | succ t ih =>
      rw [Function.iterate_succ_apply']
      by_cases hg : chunk_guard text.length maxChunks
          ((chunk_gstep text size overlap maxChunks)^[t] { start := 0, chunks := [] }) = true
      · have hlt : ((chunk_gstep text size overlap maxChunks)^[t]
            { start := 0, chunks := [] }).chunks.length < maxChunks := by
          simp only [chunk_guard, Bool.and_eq_true, decide_eq_true_eq] at hg
          exact hg.2
        rw [chunk_gstep, if_pos hg]
        unfold chunk_step
        dsimp only
        split
        · simpa using hlt
        · omega
      · have hfalse : chunk_guard text.length maxChunks
            ((chunk_gstep text size overlap maxChunks)^[t] { start := 0, chunks := [] }) = false := by
          simpa using hg
        rw [chunk_gstep, if_neg (by simp [hfalse])]
        exact ih

theorem chunk_loop_stall (text : List Char) (size overlap maxChunks : Nat) (st : Int)
    (c : List Char)
    (hfix : ∀ cs, chunk_step text size overlap { start := st, chunks := cs } =
      { start := st, chunks := cs ++ [c] })
    (hst : st < (text.length : Int)) :
    ∀ (n : Nat) (cs : List (List Char)) (fuel : Nat), cs.length + n = maxChunks → n ≤ fuel →
      chunk_loop text size overlap maxChunks fuel { start := st, chunks := cs } =
        some (cs ++ List.replicate n c) := by
  intro n
  induction n with
  | zero =>
      intro cs fuel hlen _
      have hg : chunk_guard text.length maxChunks { start := st, chunks := cs } = false := by
        simp only [chunk_guard, Bool.and_eq_false_iff]
        right
        simpa using (by omega : ¬ cs.length < maxChunks)
      rw [chunk_loop_of_guard_false hg]
      simp
  | succ n ih =>
      intro cs fuel hlen hfuel
      have hg : chunk_guard text.length maxChunks { start := st, chunks := cs } = true := by
        simp only [chunk_guard, Bool.and_eq_true, decide_eq_true_eq]
        exact ⟨hst, by omega⟩
      cases fuel with
      | zero => omega
      | succ fuel =>
          rw [show chunk_loop text size overlap maxChunks (fuel + 1)
                { start := st, chunks := cs } =
              chunk_loop text size overlap maxChunks fuel
                (chunk_step text size overlap { start := st, chunks := cs }) from
              by simp [chunk_loop, hg]]
          rw [hfix cs, ih (cs ++ [c]) fuel (by simpa using by omega) (by omega)]
          rw [List.append_assoc, List.singleton_append]
          rfl

end PDF

namespace PDF

theorem wsTail_fixpoint :
    ∀ fuel, chunk_loop wsTailText 300 20 1000 fuel { start := 280, chunks := [wsTailText] }
      = none := by
  intro fuel
  induction fuel with
  | zero => decide
  | succ fuel ih =>
      have hg : chunk_guard wsTailText.length 1000 { start := 280, chunks := [wsTailText] }
          = true := by decide
      have hstep : chunk_step wsTailText 300 20 { start := 280, chunks := [wsTailText] } =
          { start := 280, chunks := [wsTailText] } := by decide
      rw [show chunk_loop wsTailText 300 20 1000 (fuel + 1)
            { start := 280, chunks := [wsTailText] } =
          chunk_loop wsTailText 300 20 1000 fuel
            (chunk_step wsTailText 300 20 { start := 280, chunks := [wsTailText] }) from
          by simp [chunk_loop, hg]]
      rw [hstep]
      exact ih

theorem abc_sink :
    ∀ (fuel : Nat) (st : Int) (cs : List (List Char)), st ≤ -6 → cs.length < 10 →
      chunk_loop abcText 3 5 10 fuel { start := st, chunks := cs } = none := by
  have hL : abcText.length = 3 := by decide
  intro fuel
  induction fuel with
  | zero =>
      intro st cs hst hcs
      have hg : chunk_guard abcText.length 10 { start := st, chunks := cs } = true := by
        simp only [chunk_guard, Bool.and_eq_true, decide_eq_true_eq, hL]
        exact ⟨by omega, hcs⟩
      simp [chunk_loop, hg]
  | succ fuel ih =>
      intro st cs hst hcs
      have hg : chunk_guard abcText.length 10 { start := st, chunks := cs } = true := by
        simp only [chunk_guard, Bool.and_eq_true, decide_eq_true_eq, hL]
        exact ⟨by omega, hcs⟩
      have hend : chunk_endPos abcText.length 3 st = st + 3 := by
        unfold chunk_endPos
        rw [hL, if_neg (by omega)]
        norm_num
      have hlo : pyBound abcText.length st = 0 := by
        unfold pyBound
        rw [hL, if_pos (by omega)]
        exact Int.toNat_of_nonpos (by omega)
      have hhi : pyBound abcText.length (chunk_endPos abcText.length 3 st) = 0 := by
        rw [hend]
        unfold pyBound
        rw [hL, if_pos (by omega)]
        exact Int.toNat_of_nonpos (by omega)
      have hpiece : chunk_piece abcText 3 st = [] := by
        unfold chunk_piece
        rw [hlo, hhi]
        simp
      have hstep : chunk_step abcText 3 5 { start := st, chunks := cs } =
          { start := st - 2, chunks := cs } := by
        unfold chunk_step
        dsimp only
        rw [hpiece, hend]
        norm_num [strip_nonempty]
        ring
      rw [show chunk_loop abcText 3 5 10 (fuel + 1) { start := st, chunks := cs } =
          chunk_loop abcText 3 5 10 fuel
            (chunk_step abcText 3 5 { start := st, chunks := cs }) from
          by simp [chunk_loop, hg]]
      rw [hstep]
      exact ih (st - 2) cs (by omega) hcs

/-- C3: the claim (and the spec's "must not loop infinitely") is violated by
the code. Two concrete divergences of the scanning loop of chunk_text: at the
default configuration (size 300, overlap 20, max 1000) on a 300-character text
whose final window is whitespace-only, the loop reaches start = 280 with one
chunk and repeats that state forever; with overlap 5 > size 3 on the text abc,
`start` decreases without bound and the chunk count freezes at 2. In both
cases the loop never terminates, for every amount of fuel. -/
theorem C3_chunk_text_diverges :
    (∀ fuel, chunk_text wsTailText 300 20 1000 fuel = none) ∧
    (∀ fuel, chunk_text abcText 3 5 10 fuel = none) := by
  constructor
  · intro fuel
    unfold chunk_text
    cases fuel with
    | zero => decide
    | succ fuel =>
        have hg : chunk_guard wsTailText.length 1000 { start := 0, chunks := [] } = true := by
          decide
        have hstep : chunk_step wsTailText 300 20 { start := 0, chunks := [] } =
            { start := 280, chunks := [wsTailText] } := by decide
        rw [show chunk_loop wsTailText 300 20 1000 (fuel + 1) { start := 0, chunks := [] } =
            chunk_loop wsTailText 300 20 1000 fuel
              (chunk_step wsTailText 300 20 { start := 0, chunks := [] }) from
            by simp [chunk_loop, hg]]
        rw [hstep, wsTail_fixpoint fuel]
        rfl
  · intro fuel
    unfold chunk_text
    match fuel with
    | 0 => decide
    | 1 => decide
    | 2 => decide
    | (f + 3 : Nat) =>
        rw [show f + 3 = 3 + f from by omega, chunk_loop_add]
        rw [show (chunk_gstep abcText 3 5 10)^[3] { start := 0, chunks := [] } =
            { start := -6, chunks := [("abc").data, ("ab").data] } from by decide]
        rw [abc_sink f (-6) [("abc").data, ("ab").data] (by omega) (by decide)]
        rfl

/-- C9: on every input and configuration, the number of chunks chunk_text
returns is at most max_chunks, both on the normal return path (which slices
`chunks[:max_chunks]`) and on the MemoryError degradation path (which returns
half of the chunks accumulated at whatever loop state had been reached). -/
theorem C9_max_chunks_bound :
    ∀ (text : List Char) (size overlap maxChunks fuel t : Nat),
      ((chunk_text text size overlap maxChunks fuel).getD []).length ≤ maxChunks ∧
      (chunk_mem_fallback
        ((chunk_gstep text size overlap maxChunks)^[t] { start := 0, chunks := [] })).length
        ≤ maxChunks := by
  intro text size overlap maxChunks fuel t
  constructor
  · unfold chunk_text
    cases h : chunk_loop text size overlap maxChunks fuel { start := 0, chunks := [] } with
    | none => simp
    | some cs => simp [List.length_take]
  · have hlen := chunk_iter_length_le text size overlap maxChunks t
    unfold chunk_mem_fallback
    simp only [List.length_take]
    omega

end PDF


namespace PDF

/-- C1 counterexample: the claimed windowing law fails on the code. Chunking
"AAAA BBBB CCCC DDDD" with size 8, overlap 2 (max 5 chunks), the code's chunk
at position 3 is "DD" (the loop stalls at scan position 17 = 19 - overlap and
re-slices the final overlap-wide window), whereas the law says chunk 3 is the
width-8 window at 3 * 6 = 18, namely "D". -/
theorem C1_windowing_cex :
    ((chunk_text sampleText 8 2 5 20).getD [])[3]? = some (("DD").data) ∧
    window sampleText 8 2 3 = ("D").data ∧
    (("DD").data : List Char) ≠ ("D").data := by
  refine ⟨by decide, by decide, by decide⟩

/-- C1 (amended): the windowing law holds for the initial segment of the scan,
before the window is clipped at the text's end: if overlap < size, windows 0
through i+1 fit entirely inside the text, each of those windows has
non-whitespace content, and i+1 < max_chunks, then whenever chunk_text
returns, its chunk i is exactly the width-size substring at position
i*(size-overlap), likewise chunk i+1, and the two consecutive chunks overlap
in exactly the configured overlap: the last `overlap` characters of chunk i
are the first `overlap` characters of chunk i+1. -/
theorem C1_windowing_prefix (text : List Char) (size overlap maxChunks fuel i : Nat)
    (hov : overlap < size)
    (hfit : (i + 1) * (size - overlap) + size ≤ text.length)
    (hws : ∀ j, j ≤ i + 1 → strip_nonempty (window text size overlap j) = true)
    (hmax : i + 1 < maxChunks) :
    ∀ r, chunk_text text size overlap maxChunks fuel = some r →
      r[i]? = some (window text size overlap i) ∧
      r[i+1]? = some (window text size overlap (i+1)) ∧
      (window text size overlap i).drop (size - overlap) =
        (window text size overlap (i+1)).take overlap := by
  intro r hr
  have hfit' : ∀ u, u ≤ i + 1 → u * (size - overlap) + size ≤ text.length := by
    intro u hu
    have : u * (size - overlap) ≤ (i + 1) * (size - overlap) :=
      Nat.mul_le_mul_right _ hu
    omega
  unfold chunk_text at hr
  cases hloop : chunk_loop text size overlap maxChunks fuel { start := 0, chunks := [] } with
  | none =>
      rw [hloop] at hr
      exact Option.noConfusion hr
  | some r0 =>
      rw [hloop, Option.map_some'] at hr
      have hr' : r0.take maxChunks = r := Option.some.inj hr
      have hguards : ∀ u, u < i + 2 →
          chunk_guard text.length maxChunks
            ((chunk_gstep text size overlap maxChunks)^[u] { start := 0, chunks := [] }) = true := by
        intro u hu
        rw [chunk_iter_windows text size overlap maxChunks hov u
          (fun v hv => hfit' v (by omega)) (fun v hv => hws v (by omega)) (by omega)]
        simp only [chunk_guard, Bool.and_eq_true, decide_eq_true_eq]
        constructor
        · have := hfit' u (by omega)
          exact_mod_cast (by omega : u * (size - overlap) < text.length)
        · simpa using (by omega : u < maxChunks)
      obtain ⟨v, hv⟩ := chunk_loop_through text size overlap maxChunks (i + 2) fuel
        { start := 0, chunks := [] } r0 hguards hloop
      rw [chunk_iter_windows text size overlap maxChunks hov (i + 2)
        (fun u hu => hfit' u (by omega)) (fun u hu => hws u (by omega)) (by omega)] at hv
      simp only at hv
      have hget : ∀ j, j < i + 2 → r[j]? = some (window text size overlap j) := by
        intro j hj
        rw [← hr']
        rw [List.getElem?_take_of_lt (by omega : j < maxChunks)]
        rw [hv, List.getElem?_append_left (by simpa using (by omega : j < i + 2))]
        rw [List.getElem?_map, List.getElem?_range hj]
        rfl
      refine ⟨hget i (by omega), hget (i + 1) (by omega), ?_⟩
      unfold window
      rw [List.drop_take, List.drop_drop, List.take_take]
      have h1 : size - (size - overlap) = overlap := by omega
      have h2 : i * (size - overlap) + (size - overlap) = (i + 1) * (size - overlap) := by ring
      have h3 : min overlap size = overlap := by omega
      rw [h1, h2, h3]

/-- C1 witness: the amended windowing law at the spec's sample text with
size 8, overlap 2, max_chunks 3: chunks 0 and 1 are the windows at positions
0 and 6, and chunk 0's last 2 characters equal chunk 1's first 2. -/
theorem C1_windowing_witness :
    [("AAAA BBB").data, ("BBB CCCC").data, ("CC DDDD").data][0]? =
      some (window sampleText 8 2 0) ∧
    [("AAAA BBB").data, ("BBB CCCC").data, ("CC DDDD").data][1]? =
      some (window sampleText 8 2 1) ∧
    (window sampleText 8 2 0).drop 6 = (window sampleText 8 2 1).take 2 :=
  C1_windowing_prefix sampleText 8 2 3 10 0 (by decide) (by decide) (by decide) (by decide)
    [("AAAA BBB").data, ("BBB CCCC").data, ("CC DDDD").data] (by decide)

theorem chunk_text_sample_full :
    chunk_text sampleText 8 2 1000 1100 =
      some ([("AAAA BBB").data, ("BBB CCCC").data, ("CC DDDD").data] ++
        List.replicate 997 (("DD").data)) := by
  unfold chunk_text
  rw [show (1100 : Nat) = 3 + 1097 from by norm_num, chunk_loop_add]
  rw [show (chunk_gstep sampleText 8 2 1000)^[3] { start := 0, chunks := [] } =
      { start := 17,
        chunks := [("AAAA BBB").data, ("BBB CCCC").data, ("CC DDDD").data] } from by decide]
  have hfix : ∀ cs, chunk_step sampleText 8 2 { start := 17, chunks := cs } =
      { start := 17, chunks := cs ++ [("DD").data] } := by
    intro cs
    unfold chunk_step
    dsimp only
    rw [show chunk_piece sampleText 8 (17 : Int) = ("DD").data from by decide,
      show chunk_endPos sampleText.length 8 (17 : Int) = (19 : Int) from by decide,
      show strip_nonempty (("DD").data) = true from by decide]
    norm_num
  rw [chunk_loop_stall sampleText 8 2 1000 17 (("DD").data) hfix (by decide) 997
    [("AAAA BBB").data, ("BBB CCCC").data, ("CC DDDD").data] 1097 (by simp) (by norm_num)]
  rw [Option.map_some', List.take_of_length_le (by simp)]

/-- C4 counterexample: the end-to-end chunking scenario of the spec fails on
the code. With text "AAAA BBBB CCCC DDDD", size 8, overlap 2 and the default
max_chunks 1000, the code's chunk 1 is "BBB CCCC" (the width-8 window at
position 6), not the spec's "BB CCCC "; and the result has 1000 chunks, not 3:
after the three scan windows the loop stalls and pads with copies of "DD". -/
theorem C4_scenario_cex :
    ((chunk_text sampleText 8 2 1000 1100).getD [])[1]? = some (("BBB CCCC").data) ∧
    (("BBB CCCC").data : List Char) ≠ ("BB CCCC ").data ∧
    ((chunk_text sampleText 8 2 1000 1100).getD []).length = 1000 ∧
    (1000 : Nat) ≠ 3 := by
  rw [chunk_text_sample_full]
  refine ⟨rfl, by decide, ?_, by decide⟩
  simp

/-- C4 (amended): what the code actually produces on the scenario text with
size 8, overlap 2, max_chunks 1000: the windows at scan positions 0, 6, 12
("AAAA BBB", "BBB CCCC", "CC DDDD" — the last clipped to the text's end),
after which the scan stalls at position 17 and appends the final 2-character
window "DD" another 997 times until max_chunks is reached. -/
theorem C4_scenario_actual :
    chunk_text sampleText 8 2 1000 1100 =
      some ([("AAAA BBB").data, ("BBB CCCC").data, ("CC DDDD").data] ++
        List.replicate 997 (("DD").data)) :=
  chunk_text_sample_full

end PDF

namespace PDF

theorem gen_go_of_ge (encode : List (List Char) → Option (List (List ℚ)))
    (chunks : List (List Char)) (fuel i : Nat) (h : chunks.length ≤ i) :
    gen_go encode chunks fuel i = ([], []) := by
  cases fuel <;> simp [gen_go, Nat.not_lt.mpr h]

theorem getLast?_cons_of_ne {α : Type} (a : α) (l : List α) (h : l ≠ []) :
    (a :: l).getLast? = l.getLast? := by
  cases l with
  | nil => simp at h
  | cons b t => simp [List.getLast?_cons_cons]

theorem gen_go_reports_bounds (encode : List (List Char) → Option (List (List ℚ)))
    (chunks : List (List Char)) :
    ∀ fuel i, ∀ r ∈ (gen_go encode chunks fuel i).2, 0 ≤ r ∧ r ≤ 1 := by
  intro fuel
  induction fuel with
  | zero => intro i r hr; simp [gen_go] at hr
  | succ fuel ih =>
      intro i r hr
      by_cases hi : i < chunks.length
      · cases henc : encode ((chunks.drop i).take 5) with
        | none =>
            rw [show gen_go encode chunks (fuel + 1) i = gen_go encode chunks fuel (i + 5) from
              by simp [gen_go, hi, henc]] at hr
            exact ih (i + 5) r hr
        | some embs =>
            rw [show gen_go encode chunks (fuel + 1) i =
                (embs ++ (gen_go encode chunks fuel (i + 5)).1,
                  (((i + ((chunks.drop i).take 5).length : Nat) : ℚ) / (chunks.length : ℚ)) ::
                    (gen_go encode chunks fuel (i + 5)).2) from by simp [gen_go, hi, henc]] at hr
            simp only [List.mem_cons] at hr
            rcases hr with hr | hr
        
            · subst hr
              have hb : ((chunks.drop i).take 5).length = min 5 (chunks.length - i) := by simp
              have hnum : i + ((chunks.drop i).take 5).length ≤ chunks.length := by
                rw [hb]; omega
              have hpos : (0 : ℚ) < (chunks.length : ℚ) := by exact_mod_cast (by omega : 0 < chunks.length)
              constructor
              · positivity
              · rw [div_le_one hpos]
                exact_mod_cast hnum
            · exact ih (i + 5) r hr
      · rw [show gen_go encode chunks (fuel + 1) i = ([], []) from by simp [gen_go, hi]] at hr
        simp at hr

theorem gen_go_reports_sorted (encode : List (List Char) → Option (List (List ℚ)))
    (chunks : List (List Char)) :
    ∀ fuel i, ((gen_go encode chunks fuel i).2).Pairwise (fun a b => a ≤ b) ∧
      ∀ r ∈ (gen_go encode chunks fuel i).2,
        ((min (i + 5) chunks.length : Nat) : ℚ) / (chunks.length : ℚ) ≤ r := by
  intro fuel
  induction fuel with
  | zero => intro i; refine ⟨by simp [gen_go], by simp [gen_go]⟩
  | succ fuel ih =>
      intro i
      by_cases hi : i < chunks.length
      · have hpos : (0 : ℚ) < (chunks.length : ℚ) := by
          exact_mod_cast (by omega : 0 < chunks.length)
        have hmono : ((min (i + 5) chunks.length : Nat) : ℚ) / (chunks.length : ℚ) ≤
            ((min (i + 5 + 5) chunks.length : Nat) : ℚ) / (chunks.length : ℚ) := by
          gcongr
          omega
        cases henc : encode ((chunks.drop i).take 5) with
        | none =>
            rw [show gen_go encode chunks (fuel + 1) i = gen_go encode chunks fuel (i + 5) from
              by simp [gen_go, hi, henc]]
            refine ⟨(ih (i + 5)).1, fun r hr => le_trans hmono ((ih (i + 5)).2 r hr)⟩
        | some embs =>
            have hb : (i + ((chunks.drop i).take 5).length : Nat) = min (i + 5) chunks.length := by
              simp only [List.length_take, List.length_drop]
              omega
            rw [show gen_go encode chunks (fuel + 1) i =
                (embs ++ (gen_go encode chunks fuel (i + 5)).1,
                  (((i + ((chunks.drop i).take 5).length : Nat) : ℚ) / (chunks.length : ℚ)) ::
                    (gen_go encode chunks fuel (i + 5)).2) from by simp [gen_go, hi, henc]]
            constructor
            · refine List.Pairwise.cons ?_ (ih (i + 5)).1
              intro b hb'
              rw [hb]
              exact le_trans hmono ((ih (i + 5)).2 b hb')
            · intro r hr
              simp only [List.mem_cons] at hr
              rcases hr with hr | hr
              · rw [hr, hb]
              · exact le_trans hmono ((ih (i + 5)).2 r hr)
      · rw [gen_go_of_ge encode chunks (fuel + 1) i (by omega)]
        refine ⟨by simp, by simp⟩

theorem gen_go_last_one (encode : List (List Char) → Option (List (List ℚ)))
    (chunks : List (List Char))
    (hok : encode ((chunks.drop (last_batch_start chunks.length)).take 5) ≠ none) :
    ∀ fuel i, i % 5 = 0 → i < chunks.length → chunks.length - i ≤ fuel →
      ((gen_go encode chunks fuel i).2).getLast? = some 1 := by
  intro fuel
  induction fuel with
  | zero => intro i _ hi hf; omega
  | succ fuel ih =>
      intro i hmod hi hf
      by_cases hlast : chunks.length ≤ i + 5
      · have hlb : last_batch_start chunks.length = i := by
          unfold last_batch_start
          omega
        rw [hlb] at hok
        cases henc : encode ((chunks.drop i).take 5) with
        | none => exact absurd henc hok
        | some embs =>
            rw [show gen_go encode chunks (fuel + 1) i =
                (embs ++ (gen_go encode chunks fuel (i + 5)).1,
                  (((i + ((chunks.drop i).take 5).length : Nat) : ℚ) / (chunks.length : ℚ)) ::
                    (gen_go encode chunks fuel (i + 5)).2) from by simp [gen_go, hi, henc]]
            rw [gen_go_of_ge encode chunks fuel (i + 5) hlast]
            have hb : (i + ((chunks.drop i).take 5).length : Nat) = chunks.length := by
              simp only [List.length_take, List.length_drop]
              omega
            rw [hb]
            simp only [List.getLast?_singleton, Option.some_inj]
            rw [div_self]
            exact_mod_cast (by omega : chunks.length ≠ 0)
      · have hrest := ih (i + 5) (by omega) (by omega) (by omega)
        have hne : (gen_go encode chunks fuel (i + 5)).2 ≠ [] := by
          intro hnil
          rw [hnil] at hrest
          simp at hrest
        cases henc : encode ((chunks.drop i).take 5) with
        | none =>
            rw [show gen_go encode chunks (fuel + 1) i = gen_go encode chunks fuel (i + 5) from
              by simp [gen_go, hi, henc]]
            exact hrest
        | some embs =>
            rw [show gen_go encode chunks (fuel + 1) i =
                (embs ++ (gen_go encode chunks fuel (i + 5)).1,
                  (((i + ((chunks.drop i).take 5).length : Nat) : ℚ) / (chunks.length : ℚ)) ::
                    (gen_go encode chunks fuel (i + 5)).2) from by simp [gen_go, hi, henc]]
            dsimp only
            rw [getLast?_cons_of_ne _ _ hne]
            exact hrest

end PDF

namespace PDF

/-- C5 counterexample: the claim fails on the code when the final batch's
embedding call fails. With the six chunks of `chunksW` (batches of 5 and 1)
and an encoder that fails on the one-chunk trailing batch, the callback is
invoked only once, with 5/6; no invocation reports the failed batch's
progress, and the final invocation reports 5/6, not 1.0. -/
theorem C5_progress_cex :
    (generate_embeddings encodeB chunksW).2 = [(5 : ℚ)/6] ∧
    (generate_embeddings encodeB chunksW).2.getLast? ≠ some 1 := by
  have h : (generate_embeddings encodeB chunksW).2 = [(5 : ℚ)/6] := by
    norm_num [generate_embeddings, gen_go, chunksW, encodeB]
  refine ⟨h, ?_⟩
  rw [h]
  norm_num

/-- C5 (amended): the progress callback is invoked once per successful batch
(failed batches trigger no invocation) with the cumulative fraction of chunks
attempted so far (counting chunks of failed batches, since the fraction is
computed from the loop index); the reported sequence is non-decreasing and
lies in [0, 1]; and provided the chunk list is non-empty and the final batch's
embedding call succeeds, the final invocation reports exactly 1.0. -/
theorem C5_progress_reports (encode : List (List Char) → Option (List (List ℚ)))
    (chunks : List (List Char)) :
    ((generate_embeddings encode chunks).2).Pairwise (fun a b => a ≤ b) ∧
    (∀ r ∈ (generate_embeddings encode chunks).2, 0 ≤ r ∧ r ≤ 1) ∧
    (chunks ≠ [] →
      encode ((chunks.drop (last_batch_start chunks.length)).take 5) ≠ none →
      ((generate_embeddings encode chunks).2).getLast? = some 1) := by
  refine ⟨(gen_go_reports_sorted encode chunks chunks.length 0).1,
    gen_go_reports_bounds encode chunks chunks.length 0, ?_⟩
  intro hne hok
  have hlen : 0 < chunks.length := List.length_pos.mpr hne
  exact gen_go_last_one encode chunks hok chunks.length 0 (by omega) hlen (by omega)

/-- C5 witness: with the six chunks of `chunksW` and an encoder that succeeds
on every batch, the hypotheses hold and the final reported fraction is 1. -/
theorem C5_progress_witness :
    chunksW ≠ [] ∧
    encodeW ((chunksW.drop (last_batch_start chunksW.length)).take 5) ≠ none ∧
    ((generate_embeddings encodeW chunksW).2).getLast? = some 1 :=
  ⟨by decide, by decide,
    (C5_progress_reports encodeW chunksW).2.2 (by decide) (by decide)⟩

end PDF

namespace PDF

theorem extract_go_flatten (pages : List (Option (List Char))) (bs : Nat) (hbs : 0 < bs) :
    ∀ (fuel i : Nat), pages.length - i ≤ fuel →
      (extract_go pages bs fuel i).flatten = ((pages.drop i).map extract_text_from_page).flatten := by
  intro fuel
  induction fuel with
  | zero =>
      intro i h
      have hle : pages.length ≤ i := by omega
      simp [extract_go, List.drop_eq_nil_of_le hle]
  | succ fuel ih =>
      intro i h
      by_cases hi : i < pages.length
      · rw [show extract_go pages bs (fuel + 1) i =
            ((pages.drop i).take bs).map extract_text_from_page ++
              extract_go pages bs fuel (i + bs) from by simp [extract_go, hi]]
        rw [List.flatten_append, ih (i + bs) (by omega)]
        have hsplit : pages.drop i = (pages.drop i).take bs ++ pages.drop (i + bs) := by
          have hdd : (pages.drop i).drop bs = pages.drop (i + bs) := List.drop_drop ..
          rw [← hdd, List.take_append_drop]
        conv_rhs => rw [hsplit]
        rw [List.map_append, List.flatten_append]
      · rw [show extract_go pages bs (fuel + 1) i = [] from by simp [extract_go, hi]]
        have hle : pages.length ≤ i := by omega
        simp [List.drop_eq_nil_of_le hle]

/-- C8: a page whose extraction raises contributes the empty string (the
oracle value `none` degrades to []), and for every document and positive batch
size the whole batched, order-preserving extraction still succeeds, returning
exactly the concatenation of all pages' (possibly empty) texts. -/
theorem C8_page_failure_isolated (pages : List (Option (List Char))) (bs : Nat) (hbs : 0 < bs) :
    extract_text_from_page none = [] ∧
    extract_text_from_pdf pages bs = (pages.map (fun p => p.getD [])).flatten := by
  refine ⟨rfl, ?_⟩
  unfold extract_text_from_pdf
  rw [extract_go_flatten pages bs hbs pages.length 0 (by omega)]
  rfl

/-- C8 witness: a three-page document whose middle page fails extracts to the
concatenation ab ++ [] ++ c = abc, with batch size 2. -/
theorem C8_witness :
    0 < 2 ∧
    (extract_text_from_page none = ([] : List Char) ∧
      extract_text_from_pdf [some (("ab").data), none, some (("c").data)] 2 =
        ([some (("ab").data), none, some (("c").data)].map (fun p => p.getD [])).flatten) ∧
    extract_text_from_pdf [some (("ab").data), none, some (("c").data)] 2 = ("abc").data :=
  ⟨by decide,
    C8_page_failure_isolated [some (("ab").data), none, some (("c").data)] 2 (by decide),
    by decide⟩

/-- C6: when the index is already initialized at dimensionality D and a batch
of a different dimensionality is presented, build_index leaves the entire
index state — vectors and dimensionality — unchanged, and reports the failure
(the returned flag models the printed error; faiss's `add` raises before any
vector is stored and the except block absorbs it). -/
theorem C6_dim_mismatch_preserves (s : IndexState) (d : Nat) (rows : List (List ℚ))
    (hinit : s.initialized = true) (hne : d ≠ s.dim) :
    build_index s d rows = (s, true) := by
  simp [build_index, hinit, hne]

/-- C6 witness: adding a 3-dimensional batch to an index initialized at
dimensionality 2 with one stored vector leaves the state unchanged and
reports the error. -/
theorem C6_witness :
    build_index { initialized := true, dim := 2, vecs := [[1, 2]] } 3 [[1, 2, 3]] =
      ({ initialized := true, dim := 2, vecs := [[1, 2]] }, true) :=
  C6_dim_mismatch_preserves { initialized := true, dim := 2, vecs := [[1, 2]] } 3
    [[1, 2, 3]] rfl (by decide)

/-- C7: both failure modes of the query path return the empty result list
instead of propagating: a failed query embedding (`none` from the encoder),
and a query embedding whose dimensionality does not match the index (which
makes faiss's search raise); the surrounding except block yields []. -/
theorem C7_query_failure_empty (idx : IndexState) (textChunks : List (List Char)) (k : Nat) :
    search none idx textChunks k = [] ∧
    ∀ q : List ℚ, q.length ≠ idx.dim → search (some q) idx textChunks k = [] := by
  refine ⟨rfl, ?_⟩
  intro q hq
  simp [search, hq]

/-- C7 witness: a 1-dimensional query embedding against the fresh
384-dimensional index returns the empty result. -/
theorem C7_witness :
    search (some [(0 : ℚ)]) initIndexState [("A").data] 3 = [] :=
  (C7_query_failure_empty initIndexState [("A").data] 3).2 [(0 : ℚ)] (by decide)

/-- C2: the claim fails on the code. Searching an index holding N = 1
embedding with k = 3 returns 3 results, not min(k, N) = 1: faiss pads the
missing neighbors with label -1, the filter `idx < len(text_chunks)` admits
-1, and Python's negative indexing resolves it to the last stored chunk, so
the padding entries surface as duplicate results. -/
theorem C2_search_overcount :
    (search (some [(0 : ℚ)]) idxOne [("A").data] 3).map (fun p => p.1) =
      [("A").data, ("A").data, ("A").data] ∧
    (search (some [(0 : ℚ)]) idxOne [("A").data] 3).length = 3 ∧
    min 3 idxOne.vecs.length = 1 ∧ (3 : Nat) ≠ 1 := by
  refine ⟨by decide, by decide, by decide, by decide⟩

/-- C10 counterexample: a process_pdf call in which extraction raises (the
open oracle is `none`) does not overwrite text_chunks: on an already-populated
pipeline it returns [] but the stored chunk sequence keeps its old, non-empty
value, contradicting the claim that every call overwrites it with the new
document's chunk list. -/
theorem C10_overwrite_cex :
    process_pdf none 300 20 1000 10 populatedState = some (populatedState, []) ∧
    populatedState.text_chunks ≠ [] := by
  exact ⟨rfl, by decide⟩

/-- C10 (amended): every process_pdf call in which extraction succeeds
overwrites text_chunks with the new document's chunk list (including an empty
one) and leaves the index untouched; a call in which extraction raises
returns [] and leaves the whole state (text_chunks included) unchanged; and
build_index only ever appends to the stored vectors (given the initialization
invariant that an uninitialized index holds no vectors). Consequently a
failed ingest whose extraction succeeded but produced no chunks leaves the
index holding the previous embeddings while text_chunks has been replaced. -/
theorem C10_overwrite_amended :
    (∀ (pages : List (Option (List Char))) (size overlap maxChunks fuel : Nat)
        (s s' : PipelineState) (r : List (List Char)),
      process_pdf (some pages) size overlap maxChunks fuel s = some (s', r) →
      s'.text_chunks = r ∧ s'.index = s.index) ∧
    (∀ (size overlap maxChunks fuel : Nat) (s : PipelineState),
      process_pdf none size overlap maxChunks fuel s = some (s, [])) ∧
    (∀ (s : IndexState) (d : Nat) (rows : List (List ℚ)),
      (s.initialized = false → s.vecs = []) →
      ∃ t, ((build_index s d rows).1).vecs = s.vecs ++ t) := by
  refine ⟨?_, ?_, ?_⟩
  · intro pages size overlap maxChunks fuel s s' r h
    cases hct : chunk_text (extract_text_from_pdf pages 10) size overlap maxChunks fuel with
    | none =>
        rw [show process_pdf (some pages) size overlap maxChunks fuel s = none from
          by simp [process_pdf, hct]] at h
        exact Option.noConfusion h
    | some cs =>
        rw [show process_pdf (some pages) size overlap maxChunks fuel s =
            some ({ s with text_chunks := cs }, cs) from by simp [process_pdf, hct]] at h
        have h' := Option.some.inj h
        injection h' with h1 h2
        subst h1
        subst h2
        exact ⟨rfl, rfl⟩
  · intro size overlap maxChunks fuel s
    rfl
  · intro s d rows hinv
    by_cases hi : s.initialized
    · by_cases hd : d = s.dim
      · exact ⟨rows, by simp [build_index, hi, hd]⟩
      · exact ⟨[], by simp [build_index, hi, hd]⟩
    · have hv : s.vecs = [] := hinv (by simpa using hi)
      exact ⟨rows, by simp [build_index, hi, hv]⟩

/-- C10 witness: ingesting a document that extracts to xy (size 300,
overlap 0) on the populated pipeline replaces text_chunks with the new
single-chunk list and leaves the index exactly as it was. -/
theorem C10_overwrite_witness :
    ({ index := populatedState.index, text_chunks := [("xy").data] } : PipelineState).text_chunks
      = [("xy").data] ∧
    ({ index := populatedState.index, text_chunks := [("xy").data] } : PipelineState).index
      = populatedState.index :=
  C10_overwrite_amended.1 xyPages 300 0 1000 10 populatedState
    { index := populatedState.index, text_chunks := [("xy").data] } [("xy").data] rfl

end PDF
